import Mathlib

/-!
Verification of the ATHLETICA.OSV2 analytical data layer.

The definitions below are a shallow embedding of the client-side data
processing code of the repository: the strength-timeline grouping
(`timelineData` in the Studio Muscu view), the per-exercise progression
analytics (`analyticsData`), the smart multi-criteria selection
(`handleSmartSelect` / `isGroupSelected`), the CSV export pipeline
(`handleExport` and the shared serializer `downloadCSV`), and session
creation (`handleSaveSession`).

Modelling conventions:
* JavaScript numbers are modelled as integers (`ℤ`): every numeric value
  exercised by the claims is integral, the stated properties are ring and
  order properties, and on integral values JS number stringification
  coincides with `Int` stringification.
* JavaScript `Set` objects (insertion ordered) are modelled as `List String`
  with `setAdd`/`setDelete`; all stated properties are membership properties.
* JavaScript objects used as string-keyed records (insertion ordered) are
  modelled as association lists grown with an insert-or-append fold.
* `Array.prototype.sort` (stable since ES2019) is modelled with the stable
  `List.insertionSort`.
* `localeCompare` and `Date.getTime()`-based comparisons of the canonical
  `YYYY-MM-DD` date keys produced by the app (`new Date().toISOString()`)
  are modelled by the lexicographic `String` order, with which they agree
  on such keys.
-/

namespace Athletica

/-- `TrainingLog` from `src/types.ts`: one recorded strength set. -/
structure TrainingLog where
  date : String
  session : String
  exercise : String
  order : ℤ
  weight : ℤ
  reps : ℤ
  setNum : ℤ
  tonnage : ℤ
deriving DecidableEq, Repr

/-- `UserRoutine` from `src/types.ts` (fields used by the timeline). -/
structure UserRoutine where
  id : String
  name : String
  exercises : List String
  color : String
deriving DecidableEq, Repr

/-- `StrengthItem` from the Studio Muscu view: one grouped session summary. -/
structure StrengthItem where
  id : String
  date : String
  sessionName : String
  color : String
  tonnage : ℤ
  exercisesCount : ℕ
  logs : List TrainingLog
deriving DecidableEq, Repr

/-- The composite grouping key `` `${log.date}::${log.session}` `` used by
`timelineData`. -/
def logKey (l : TrainingLog) : String :=
  l.date ++ "::" ++ l.session

/-- JS `key.split('::')` at the character level. -/
def splitOnColons : List Char → List (List Char)
  | [] => [[]]
  | ':' :: ':' :: rest => [] :: splitOnColons rest
  | c :: rest =>
      match splitOnColons rest with
      | [] => [[c]]
      | f :: fs => (c :: f) :: fs

/-- JS `date.split('-')` at the character level. -/
def splitOnDash : List Char → List (List Char)
  | [] => [[]]
  | '-' :: rest => [] :: splitOnDash rest
  | c :: rest =>
      match splitOnDash rest with
      | [] => [[c]]
      | f :: fs => (c :: f) :: fs

/-- JS whitespace test for `String.prototype.trim`. -/
def isWS (c : Char) : Bool :=
  c = ' ' || c = '\t' || c = '\n' || c = '\r'

/-- JS `s.trim()`. -/
def jsTrim (s : String) : String :=
  ⟨((s.data.dropWhile isWS).reverse.dropWhile isWS).reverse⟩

/-- JS `s.toLowerCase()` (ASCII case mapping suffices for the claims). -/
def jsToLower (s : String) : String :=
  ⟨s.data.map Char.toLower⟩

/-- One step of filling the `strengthGroups` record: push `l` onto the group
for its key, creating the group (at the end, preserving key insertion order)
if it does not exist yet. -/
def pushGroup (acc : List (String × List TrainingLog)) (l : TrainingLog) :
    List (String × List TrainingLog) :=
  if acc.any (fun p => p.1 = logKey l) then
    acc.map (fun p => if p.1 = logKey l then (p.1, p.2 ++ [l]) else p)
  else
    acc ++ [(logKey l, [l])]

/-- The `strengthGroups` record of `timelineData`: logs bucketed by the
composite key, keys in first-occurrence order (JS object insertion order,
which is what `Object.entries` later enumerates). -/
def strengthGroups (trainingLogs : List TrainingLog) :
    List (String × List TrainingLog) :=
  trainingLogs.foldl pushGroup []

/-- Building one `StrengthItem` from a `(key, logs)` group, as in the
`Object.entries(strengthGroups).map` of `timelineData`:
`key.split('::')` is destructured into date and session name, the routine
is looked up by name for the color (default `#000000`), tonnage is the
reduce-sum of member tonnages and the exercise count is the size of the
set of member exercise names. -/
def mkItem (routines : List UserRoutine) (key : String)
    (logs : List TrainingLog) : StrengthItem :=
  let parts := (splitOnColons key.data).map (fun l => (⟨l⟩ : String))
  let date := parts.getD 0 ""
  let sessionName := parts.getD 1 ""
  let routine := routines.find? (fun r => r.name = sessionName)
  { id := key
    date := date
    sessionName := sessionName
    color := (routine.map (fun r => r.color)).getD "#000000"
    tonnage := logs.foldl (fun acc l => acc + l.tonnage) 0
    exercisesCount := (logs.map (fun l => l.exercise)).dedup.length
    logs := logs }

/-- Lexicographic string comparison on the character sequences, the model
of `localeCompare` (and of `Date.getTime()` comparison) on the canonical
date keys. -/
def strLe (a b : String) : Prop :=
  a.data ≤ b.data

/-- Strict lexicographic string comparison. -/
def strLt (a b : String) : Prop :=
  a.data < b.data

instance : DecidableRel strLe := fun a b => by
  unfold strLe; infer_instance

instance : DecidableRel strLt := fun a b => by
  unfold strLt; infer_instance

/-- The descending-by-date ordering used by `items.sort((a, b) =>
b.date.localeCompare(a.date))`. -/
def timelineRel (a b : StrengthItem) : Prop :=
  strLe b.date a.date

instance : DecidableRel timelineRel := fun a b => by
  unfold timelineRel; infer_instance

instance : IsTotal StrengthItem timelineRel :=
  ⟨fun a b => le_total b.date.data a.date.data⟩

instance : IsTrans StrengthItem timelineRel :=
  ⟨fun _ _ _ h1 h2 => le_trans h2 h1⟩

/-- The session-summary list of `timelineData` before the search filter:
grouped items, sorted descending by date. -/
def timelineItemsSorted (trainingLogs : List TrainingLog)
    (routines : List UserRoutine) : List StrengthItem :=
  List.insertionSort timelineRel
    ((strengthGroups trainingLogs).map (fun p => mkItem routines p.1 p.2))

/-- Case-insensitive substring test on character lists, modelling
JavaScript `String.prototype.includes` after `toLowerCase()`. -/
def strStarts : List Char → List Char → Bool
  | _, [] => true
  | [], _ :: _ => false
  | a :: as, b :: bs => a = b && strStarts as bs

/-- Substring containment on character lists. -/
def strHasSub : List Char → List Char → Bool
  | [], n => strStarts [] n
  | a :: t, n => strStarts (a :: t) n || strHasSub t n

/-- JS `hay.includes(needle)`. -/
def jsIncludes (hay needle : String) : Bool :=
  strHasSub hay.data needle.data

/-- The search predicate applied to timeline items when a query is active:
the session name or some member log's exercise contains the lowercased
query. -/
def matchesSearch (q : String) (i : StrengthItem) : Bool :=
  jsIncludes (jsToLower i.sessionName) q ||
    i.logs.any (fun l => jsIncludes (jsToLower l.exercise) q)

/-- `timelineData.flatItems`: grouped and sorted items, additionally run
through the search filter when a non-blank query is active and no exercise
is being analyzed. -/
def timelineFlatItems (trainingLogs : List TrainingLog)
    (routines : List UserRoutine) (searchQuery : String)
    (analyzedExercise : Option String) : List StrengthItem :=
  let items := timelineItemsSorted trainingLogs routines
  if jsTrim searchQuery ≠ "" ∧ analyzedExercise = none then
    items.filter (matchesSearch (jsToLower searchQuery))
  else
    items

/-! ### Selection engine (Studio Muscu view, explicit selection state) -/

/-- JS `Set.add`: append when absent (JS sets are insertion ordered). -/
def setAdd (s : List String) (x : String) : List String :=
  if s.contains x then s else s ++ [x]

/-- JS `Set.delete`: remove the element. -/
def setDelete (s : List String) (x : String) : List String :=
  s.filter (fun y => y ≠ x)

/-- `isGroupSelected` of the Studio Muscu view: an empty group is reported
as not selected; otherwise every member's id must be in the selection. -/
def isGroupSelected (selectedSessionIds : List String)
    (itemsToCheck : List StrengthItem) : Bool :=
  if itemsToCheck.length = 0 then false
  else itemsToCheck.all (fun item => selectedSessionIds.contains item.id)

/-- The month/year label `new Date(date).toLocaleDateString('fr-FR',
{ month: 'long', year: 'numeric' }).toUpperCase()`, modelled for the
canonical `YYYY-MM-DD` date keys of the app. -/
def frMonthLabel (date : String) : String :=
  let parts := (splitOnDash date.data).map (fun l => (⟨l⟩ : String))
  let year := parts.getD 0 ""
  let month := parts.getD 1 ""
  (match month with
   | "01" => "JANVIER"
   | "02" => "FÉVRIER"
   | "03" => "MARS"
   | "04" => "AVRIL"
   | "05" => "MAI"
   | "06" => "JUIN"
   | "07" => "JUILLET"
   | "08" => "AOÛT"
   | "09" => "SEPTEMBRE"
   | "10" => "OCTOBRE"
   | "11" => "NOVEMBRE"
   | "12" => "DÉCEMBRE"
   | _ => "INVALID DATE") ++ " " ++ year

/-- The three smart-select criteria of the Studio Muscu view. -/
inductive SmartCriteria
  | visible
  | month
  | program
deriving DecidableEq, Repr

/-- Step 1 of `handleSmartSelect`: resolve the target items from the
currently visible (already filtered) flat item list. -/
def smartTargets (flatItems : List StrengthItem) (criteria : SmartCriteria)
    (value : Option String) : List StrengthItem :=
  match criteria with
  | .visible => flatItems
  | .month => flatItems.filter (fun item => some (frMonthLabel item.date) = value)
  | .program => flatItems.filter (fun item => some item.sessionName = value)

/-- `handleSmartSelect`: no-op on an empty target group; otherwise delete
all target ids when the group is fully selected, else add them all. -/
def handleSmartSelect (selectedSessionIds : List String)
    (flatItems : List StrengthItem) (criteria : SmartCriteria)
    (value : Option String) : List String :=
  let targetItems := smartTargets flatItems criteria value
  if targetItems.length = 0 then selectedSessionIds
  else
    let allSelected :=
      targetItems.all (fun item => selectedSessionIds.contains item.id)
    if allSelected then
      targetItems.foldl (fun s item => setDelete s item.id) selectedSessionIds
    else
      targetItems.foldl (fun s item => setAdd s item.id) selectedSessionIds

/-! ### Per-exercise progression analytics (`analyticsData`) -/

/-- JS `Map.get` on an insertion-ordered association list. -/
def mapGet (m : List (String × ℤ)) (d : String) : Option ℤ :=
  (m.find? (fun p => p.1 = d)).map (fun p => p.2)

/-- JS `Map.set`: overwrite in place when the key exists (keeping its
insertion position), append otherwise. -/
def mapSet (m : List (String × ℤ)) (d : String) (v : ℤ) :
    List (String × ℤ) :=
  if m.any (fun p => p.1 = d) then
    m.map (fun p => if p.1 = d then (d, v) else p)
  else
    m ++ [(d, v)]

/-- The ascending-by-date ordering of the analytics log sort
`(a, b) => new Date(a.date).getTime() - new Date(b.date).getTime()`. -/
def dateAscRel (a b : TrainingLog) : Prop :=
  strLe a.date b.date

instance : DecidableRel dateAscRel := fun a b => by
  unfold dateAscRel; infer_instance

instance : IsTotal TrainingLog dateAscRel :=
  ⟨fun a b => le_total a.date.data b.date.data⟩

instance : IsTrans TrainingLog dateAscRel :=
  ⟨fun _ _ _ h1 h2 => le_trans h1 h2⟩

/-- The ascending-by-set-number ordering `(a, b) => a.setNum - b.setNum`. -/
def setNumRel (a b : TrainingLog) : Prop :=
  a.setNum ≤ b.setNum

instance : DecidableRel setNumRel := fun a b => by
  unfold setNumRel; infer_instance

/-- One fold step of building the `sessionMap`: record the weight as the
new daily max when it strictly exceeds the current one (0 when the date
has no entry yet). -/
def smStep (m : List (String × ℤ)) (l : TrainingLog) : List (String × ℤ) :=
  let currMax := (mapGet m l.date).getD 0
  if currMax < l.weight then mapSet m l.date l.weight else m

/-- The `sessionMap` of `analyticsData`: per-date maximum weight, built by
folding over the date-sorted logs; a date only gets an entry once a weight
strictly above the current maximum (initially 0) is seen. -/
def sessionMap (logs : List TrainingLog) : List (String × ℤ) :=
  logs.foldl smStep []

/-- Trend flag of one history entry. -/
inductive Trend
  | up
  | down
  | flat
deriving DecidableEq, Repr

/-- One entry of the reverse-chronological history list. -/
structure HistoryEntry where
  date : String
  logs : List TrainingLog
  maxWeight : ℤ
  trend : Trend
deriving DecidableEq, Repr

/-- One entry of the `historyList` of `analyticsData`, at position `idx`
of the reversed key array: that day's sets (sorted by set number), the
daily max, and the trend versus the entry that follows it in the reversed
array (the immediately preceding distinct date); `prevDate ? ... :
currentMax` treats a missing or empty (falsy) previous date as "no
predecessor". -/
def historyEntry (logs : List TrainingLog) (sm : List (String × ℤ))
    (keys : List String) (idx : ℕ) : HistoryEntry :=
  let date := keys.getD idx ""
  let sessionLogs :=
    List.insertionSort setNumRel (logs.filter (fun l => l.date = date))
  let currentMax := (mapGet sm date).getD 0
  let prevMax :=
    match keys.get? (idx + 1) with
    | some prevDate =>
        if prevDate = "" then currentMax else (mapGet sm prevDate).getD 0
    | none => currentMax
  let trend : Trend :=
    if prevMax < currentMax then .up
    else if currentMax < prevMax then .down
    else .flat
  { date := date, logs := sessionLogs, maxWeight := currentMax,
    trend := trend }

/-- The `historyList` of `analyticsData`: one `historyEntry` per
session-map key, in reverse-chronological (reversed key) order. -/
def historyList (logs : List TrainingLog) (sm : List (String × ℤ)) :
    List HistoryEntry :=
  let keys := (sm.map (fun p => p.1)).reverse
  (List.range keys.length).map (historyEntry logs sm keys)

/-- `analyticsData` (history part): `null` when no exercise is analyzed or
when it has no logs; otherwise the history list over the date-sorted logs
of that exercise. -/
def analyticsHistory (trainingLogs : List TrainingLog)
    (analyzedExercise : Option String) : Option (List HistoryEntry) :=
  match analyzedExercise with
  | none => none
  | some ex =>
      let logs :=
        List.insertionSort dateAscRel
          (trainingLogs.filter (fun l => l.exercise = ex))
      if logs.length = 0 then none
      else some (historyList logs (sessionMap logs))

/-! ### Session creation (`handleSaveSession`) -/

/-- One row of the set-entry form. -/
structure SetData where
  weight : ℤ
  reps : ℤ
deriving DecidableEq, Repr

/-- The logs produced by `handleSaveSession`: one `TrainingLog` per set row
with a positive weight or rep count, with `tonnage` set to
`weight * reps` at creation time. -/
def handleSaveSessionLogs (date sessionName exercise : String) (order : ℤ)
    (numSets : ℕ) (setsData : List SetData) : List TrainingLog :=
  (List.range numSets).filterMap (fun i =>
    match setsData.get? i with
    | some sd =>
        if 0 < sd.weight ∨ 0 < sd.reps then
          some { date := date, session := sessionName, exercise := exercise,
                 order := order, weight := sd.weight, reps := sd.reps,
                 setNum := ((i : ℤ) + 1), tonnage := sd.weight * sd.reps }
        else none
    | none => none)

/-! ### CSV serialization (`downloadCSV`) and export (`handleExport`) -/

/-- A CSV cell is a string or a number (`(string | number)[][]` rows). -/
inductive Cell
  | str (s : String)
  | num (n : ℤ)
deriving DecidableEq, Repr

/-- JS `String(cell)`: strings are unchanged; integral numbers render as
plain decimal integers, exactly as JS renders them. -/
def cellToString : Cell → String
  | .str s => s
  | .num n => toString n

/-- The quoting test of `downloadCSV`: the stringified cell contains a
comma, a double quote, or a newline. -/
def needsQuote (s : String) : Bool :=
  s.data.contains ',' || s.data.contains '"' || s.data.contains '\n'

/-- `cellStr.replace(/"/g, '""')` at the character level. -/
def doubleQuotes : List Char → List Char
  | [] => []
  | c :: cs => if c = '"' then '"' :: '"' :: doubleQuotes cs
               else c :: doubleQuotes cs

/-- Cell escaping of `downloadCSV`: wrap in double quotes, doubling inner
double quotes, exactly when the string contains a comma, a double quote,
or a newline. -/
def escapeCell (s : String) : String :=
  if needsQuote s then ⟨'"' :: doubleQuotes s.data ++ ['"']⟩ else s

/-- JS `Array.prototype.join(',')` at the character level. -/
def joinComma : List (List Char) → List Char
  | [] => []
  | [f] => f
  | f :: fs => f ++ ',' :: joinComma fs

/-- One serialized CSV row: escaped cells joined by commas. -/
def serializeRow (cells : List String) : String :=
  ⟨joinComma (cells.map (fun c => (escapeCell c).data))⟩

/-- A standard quote-respecting CSV field splitter, used to state the
round-trip property: commas split fields only outside quotes, a quoted
region is opened and closed by a double quote, and a doubled quote inside
a quoted region is a literal double quote. -/
def splitFieldsAux : List Char → Bool → List Char → List (List Char)
  | [], _, cur => [cur.reverse]
  | c :: cs, false, cur =>
      if c = ',' then cur.reverse :: splitFieldsAux cs false []
      else if c = '"' then splitFieldsAux cs true cur
      else splitFieldsAux cs false (c :: cur)
  | '"' :: '"' :: cs, true, cur => splitFieldsAux cs true ('"' :: cur)
  | '"' :: cs, true, cur => splitFieldsAux cs false cur
  | c :: cs, true, cur => splitFieldsAux cs true (c :: cur)

/-- Re-splitting one produced CSV line, respecting quotes. -/
def splitCSVLine (s : String) : List String :=
  (splitFieldsAux s.data false []).map (fun l => (⟨l⟩ : String))

/-- The CSV text built by `downloadCSV`: a byte-order mark, the headers
joined by commas, and one serialized line per row, joined by newlines. -/
def csvContent (headers : List String) (rows : List (List Cell)) : String :=
  "\uFEFF" ++ String.intercalate "\n"
    (String.intercalate "," headers ::
      rows.map (fun row => serializeRow (row.map cellToString)))

/-- The export ordering of `handleExport`: date descending, then session
name ascending, then order ascending, then set number ascending. -/
def exportRel (a b : TrainingLog) : Prop :=
  strLt b.date a.date ∨
    (b.date = a.date ∧
      (strLt a.session b.session ∨
        (a.session = b.session ∧
          (a.order < b.order ∨
            (a.order = b.order ∧ a.setNum ≤ b.setNum)))))

instance : DecidableRel exportRel := fun a b => by
  unfold exportRel; infer_instance

/-- The header row of the strength export. -/
def exportHeaders : List String :=
  ["Date", "Programme", "Exercice", "Ordre", "Serie", "Poids (kg)", "Reps",
   "Tonnage (kg)"]

/-- `formatDateISO` from `src/exportService.ts`: the identity (date keys
are kept in `YYYY-MM-DD` form). -/
def formatDateISO (dateStr : String) : String :=
  dateStr

/-- The CSV text produced by `handleExport` for a given selection: the
selected items' member logs, flattened, sorted by the export ordering, and
serialized with the fixed header row (empty selection exports nothing; the
empty-row CSV stands for the early return). -/
def handleExport (selectedSessionIds : List String)
    (flatItems : List StrengthItem) : String :=
  let itemsToExport :=
    if 0 < selectedSessionIds.length then
      flatItems.filter (fun i => selectedSessionIds.contains i.id)
    else []
  let rawDataToExport :=
    itemsToExport.foldl (fun acc item => acc ++ item.logs) []
  let sorted := List.insertionSort exportRel rawDataToExport
  csvContent exportHeaders
    (sorted.map (fun log =>
      [Cell.str (formatDateISO log.date), Cell.str log.session,
       Cell.str log.exercise, Cell.num log.order, Cell.num log.setNum,
       Cell.num log.weight, Cell.num log.reps, Cell.num log.tonnage]))

/-- Newline splitting at the character level (to count the lines of a
produced CSV text). -/
def splitOnNewline : List Char → List (List Char)
  | [] => [[]]
  | '\n' :: rest => [] :: splitOnNewline rest
  | c :: rest =>
      match splitOnNewline rest with
      | [] => [[c]]
      | f :: fs => (c :: f) :: fs

/-- The lines of a text, JS `s.split('\n')`. -/
def jsLines (s : String) : List String :=
  (splitOnNewline s.data).map (fun l => (⟨l⟩ : String))

/-! ### Concrete fixtures used by witnesses and counterexamples -/

/-- First set of the end-to-end scenario: 2024-01-10, "Push A", 50 kg × 8. -/
def pushLog1 : TrainingLog :=
  { date := "2024-01-10", session := "Push A", exercise := "Bench",
    order := 1, weight := 50, reps := 8, setNum := 1, tonnage := 400 }

/-- Second set of the end-to-end scenario: 60 kg × 8. -/
def pushLog2 : TrainingLog :=
  { pushLog1 with weight := 60, setNum := 2, tonnage := 480 }

/-- Third set of the end-to-end scenario: 70 kg × 8. -/
def pushLog3 : TrainingLog :=
  { pushLog1 with weight := 70, setNum := 3, tonnage := 560 }

/-- The 2024-01-12 set of the end-to-end scenario: 65 kg × 8. -/
def pushLog4 : TrainingLog :=
  { pushLog1 with
    date := "2024-01-12", weight := 65, setNum := 1, tonnage := 520 }

/-- The four-log input of the end-to-end scenario. -/
def pushLogs : List TrainingLog :=
  [pushLog1, pushLog2, pushLog3, pushLog4]

/-- Day-1 log of the daily-max series 50, 55, 55, 52. -/
def benchLog1 : TrainingLog :=
  { date := "2024-02-01", session := "S", exercise := "Bench",
    order := 1, weight := 50, reps := 5, setNum := 1, tonnage := 250 }

/-- Day-2 log of the daily-max series. -/
def benchLog2 : TrainingLog :=
  { benchLog1 with date := "2024-02-03", weight := 55, tonnage := 275 }

/-- Day-3 log of the daily-max series. -/
def benchLog3 : TrainingLog :=
  { benchLog1 with date := "2024-02-05", weight := 55, tonnage := 275 }

/-- Day-4 log of the daily-max series. -/
def benchLog4 : TrainingLog :=
  { benchLog1 with date := "2024-02-07", weight := 52, tonnage := 260 }

/-- The four-day input of the trend scenario. -/
def benchLogs : List TrainingLog :=
  [benchLog1, benchLog2, benchLog3, benchLog4]

/-- An entry dated in canonical ISO form. -/
def isoDatedLog : TrainingLog :=
  { date := "2024-03-05", session := "A", exercise := "Squat",
    order := 1, weight := 50, reps := 8, setNum := 1, tonnage := 400 }

/-- The same calendar day in the locale `DD/MM/YYYY` form, same session. -/
def slashDatedLog : TrainingLog :=
  { isoDatedLog with date := "05/03/2024" }

/-- Two sessions on different days, used for the selection scenarios. -/
def sessALog : TrainingLog :=
  { date := "2024-04-01", session := "Push", exercise := "Bench",
    order := 1, weight := 40, reps := 10, setNum := 1, tonnage := 400 }

/-- Second session of the selection scenarios. -/
def sessBLog : TrainingLog :=
  { date := "2024-04-02", session := "Legs", exercise := "Squat",
    order := 1, weight := 80, reps := 5, setNum := 1, tonnage := 400 }

/-! ### Lemmas about the grouping fold -/

theorem pushGroup_invariant (pre : List TrainingLog) (l : TrainingLog)
    (acc : List (String × List TrainingLog))
    (h1 : (acc.map Prod.fst).Nodup)
    (h2 : ∀ p ∈ acc, p.2 = pre.filter (fun x => logKey x = p.1))
    (h3 : ∀ x ∈ pre, ∃ p ∈ acc, p.1 = logKey x) :
    ((pushGroup acc l).map Prod.fst).Nodup ∧
    (∀ p ∈ pushGroup acc l,
      p.2 = (pre ++ [l]).filter (fun x => logKey x = p.1)) ∧
    (∀ x ∈ pre ++ [l], ∃ p ∈ pushGroup acc l, p.1 = logKey x) := by
  unfold pushGroup
  by_cases hc : ∃ p ∈ acc, p.1 = logKey l
  · have hany : acc.any (fun p => p.1 = logKey l) = true := by
      simpa [List.any_eq_true] using hc
    rw [if_pos hany]
    have hfst : (acc.map
        (fun p => if p.1 = logKey l then (p.1, p.2 ++ [l]) else p)).map
          Prod.fst = acc.map Prod.fst := by
      rw [List.map_map]
      apply List.map_congr_left
      intro p _
      by_cases hp : p.1 = logKey l <;> simp [hp]
    refine ⟨by rw [hfst]; exact h1, ?_, ?_⟩
    · intro p hp
      rcases List.mem_map.mp hp with ⟨q, hq, hpq⟩
      by_cases hql : q.1 = logKey l
      · rw [if_pos hql] at hpq
        subst hpq
        simp only [List.filter_append]
        rw [← h2 q hq]
        simp [hql.symm]
      · rw [if_neg hql] at hpq
        subst hpq
        simp only [List.filter_append]
        rw [← h2 q hq]
        have : ¬ (logKey l = q.1) := fun h => hql h.symm
        simp [this]
    · have hfst1 : ∀ q : String × List TrainingLog,
          (if q.1 = logKey l then (q.1, q.2 ++ [l]) else q).1 = q.1 := by
        intro q
        by_cases h : q.1 = logKey l <;> simp [h]
      intro x hx
      rcases List.mem_append.mp hx with hx | hx
      · rcases h3 x hx with ⟨p, hp, hpk⟩
        exact ⟨if p.1 = logKey l then (p.1, p.2 ++ [l]) else p,
          List.mem_map.mpr ⟨p, hp, rfl⟩, by rw [hfst1]; exact hpk⟩
      · have hxl := List.mem_singleton.mp hx
        rcases hc with ⟨p, hp, hpk⟩
        exact ⟨if p.1 = logKey l then (p.1, p.2 ++ [l]) else p,
          List.mem_map.mpr ⟨p, hp, rfl⟩, by rw [hfst1, hxl]; exact hpk⟩
  · have hany : ¬ acc.any (fun p => p.1 = logKey l) = true := by
      simpa [List.any_eq_true] using hc
    rw [if_neg hany]
    have hnotin : ∀ p ∈ acc, p.1 ≠ logKey l := by
      intro p hp h
      exact hc ⟨p, hp, h⟩
    refine ⟨?_, ?_, ?_⟩
    · rw [List.map_append]
      rw [List.nodup_append]
      refine ⟨h1, List.nodup_singleton _, ?_⟩
      intro k hk hk1
      rcases List.mem_map.mp hk with ⟨p, hp, rfl⟩
      rcases List.mem_singleton.mp hk1 with h
      exact hnotin p hp h
    · intro p hp
      rcases List.mem_append.mp hp with hp | hp
      · simp only [List.filter_append]
        rw [← h2 p hp]
        have : ¬ (logKey l = p.1) := fun h => hnotin p hp h.symm
        simp [this]
      · rcases List.mem_singleton.mp hp with rfl
        simp only [List.filter_append]
        have hpre : pre.filter (fun x => logKey x = logKey l) = [] := by
          rw [List.filter_eq_nil_iff]
          intro x hx hxl
          rcases h3 x hx with ⟨p, hp, hpk⟩
          exact hnotin p hp (by rw [hpk]; exact of_decide_eq_true hxl)
        rw [hpre]
        simp
    · intro x hx
      rcases List.mem_append.mp hx with hx | hx
      · rcases h3 x hx with ⟨p, hp, hpk⟩
        exact ⟨p, List.mem_append_left _ hp, hpk⟩
      · have hxl := List.mem_singleton.mp hx
        exact ⟨(logKey l, [l]),
          List.mem_append_right _ (List.mem_singleton.mpr rfl),
          by rw [hxl]⟩

theorem foldl_pushGroup_invariant :
    ∀ (logs pre : List TrainingLog) (acc : List (String × List TrainingLog)),
      (acc.map Prod.fst).Nodup →
      (∀ p ∈ acc, p.2 = pre.filter (fun x => logKey x = p.1)) →
      (∀ x ∈ pre, ∃ p ∈ acc, p.1 = logKey x) →
      ((logs.foldl pushGroup acc).map Prod.fst).Nodup ∧
      (∀ p ∈ logs.foldl pushGroup acc,
        p.2 = (pre ++ logs).filter (fun x => logKey x = p.1)) ∧
      (∀ x ∈ pre ++ logs, ∃ p ∈ logs.foldl pushGroup acc, p.1 = logKey x)
  | [], pre, acc, h1, h2, h3 => by
      rw [List.foldl_nil, List.append_nil]
      exact ⟨h1, h2, h3⟩
  | l :: logs, pre, acc, h1, h2, h3 => by
      rw [List.foldl_cons]
      have step := pushGroup_invariant pre l acc h1 h2 h3
      have IH := foldl_pushGroup_invariant logs (pre ++ [l]) (pushGroup acc l)
        step.1 step.2.1 step.2.2
      simpa [List.append_assoc] using IH

/-- The key list of the grouping record has no duplicates. -/
theorem strengthGroups_nodup_keys (logs : List TrainingLog) :
    ((strengthGroups logs).map Prod.fst).Nodup :=
  (foldl_pushGroup_invariant logs [] [] (by simp) (by simp) (by simp)).1

/-- Every group holds exactly the input logs whose composite key is the
group key, in input order. -/
theorem strengthGroups_filter (logs : List TrainingLog) :
    ∀ p ∈ strengthGroups logs,
      p.2 = logs.filter (fun x => logKey x = p.1) := by
  have h := (foldl_pushGroup_invariant logs [] [] (by simp) (by simp)
    (by simp)).2.1
  simpa using h

/-- Every input log has a group with its key. -/
theorem strengthGroups_covers (logs : List TrainingLog) :
    ∀ l ∈ logs, ∃ p ∈ strengthGroups logs, p.1 = logKey l := by
  have h := (foldl_pushGroup_invariant logs [] [] (by simp) (by simp)
    (by simp)).2.2
  simpa using h

/-! ### Timeline item lemmas -/

theorem foldl_add_tonnage (logs : List TrainingLog) :
    ∀ a : ℤ, logs.foldl (fun acc l => acc + l.tonnage) a =
      a + (logs.map (fun l => l.tonnage)).sum := by
  induction logs with
  | nil => simp
  | cons l ls ih =>
      intro a
      rw [List.foldl_cons, ih]
      simp [add_assoc]

theorem mkItem_tonnage (routines : List UserRoutine) (key : String)
    (logs : List TrainingLog) :
    (mkItem routines key logs).tonnage =
      (logs.map (fun l => l.tonnage)).sum := by
  simp [mkItem, foldl_add_tonnage]

theorem mkItem_logs (routines : List UserRoutine) (key : String)
    (logs : List TrainingLog) : (mkItem routines key logs).logs = logs :=
  rfl

theorem mkItem_id (routines : List UserRoutine) (key : String)
    (logs : List TrainingLog) : (mkItem routines key logs).id = key :=
  rfl

theorem mem_timelineItemsSorted {logs : List TrainingLog}
    {routines : List UserRoutine} {item : StrengthItem} :
    item ∈ timelineItemsSorted logs routines ↔
      ∃ p ∈ strengthGroups logs, mkItem routines p.1 p.2 = item := by
  unfold timelineItemsSorted
  rw [List.mem_insertionSort]
  simp [List.mem_map]

theorem mem_of_mem_timelineFlatItems {logs : List TrainingLog}
    {routines : List UserRoutine} {q : String} {a : Option String}
    {item : StrengthItem} (h : item ∈ timelineFlatItems logs routines q a) :
    item ∈ timelineItemsSorted logs routines := by
  unfold timelineFlatItems at h
  split at h
  · exact (List.mem_filter.mp h).1
  · exact h

/-- The tonnage of every item of the timeline is the sum of the tonnages of
exactly the input logs carrying the item's composite key. -/
theorem timelineItem_tonnage_eq {logs : List TrainingLog}
    {routines : List UserRoutine} {item : StrengthItem}
    (h : item ∈ timelineItemsSorted logs routines) :
    item.tonnage =
      ((logs.filter (fun x => logKey x = item.id)).map
        (fun l => l.tonnage)).sum ∧
    item.logs = logs.filter (fun x => logKey x = item.id) := by
  rcases mem_timelineItemsSorted.mp h with ⟨p, hp, hitem⟩
  have hfilter := strengthGroups_filter logs p hp
  constructor
  · rw [← hitem, mkItem_tonnage, mkItem_id, ← hfilter]
  · rw [← hitem, mkItem_logs, mkItem_id, ← hfilter]

/-! ### Key injectivity for colon-free dates -/

theorem append_colons_inj :
    ∀ (d1 : List Char) (s1 : List Char) (d2 : List Char) (s2 : List Char),
      ':' ∉ d1 → ':' ∉ d2 →
      d1 ++ ':' :: ':' :: s1 = d2 ++ ':' :: ':' :: s2 →
      d1 = d2 ∧ s1 = s2
  | [], s1, [], s2, _, _, h => by
      simp only [List.nil_append] at h
      injection h with _ h
      injection h with _ h
      exact ⟨rfl, h⟩
  | [], s1, c :: d2', s2, _, h2, h => by
      simp only [List.nil_append, List.cons_append] at h
      injection h with hc _
      exact (h2 (by rw [← hc]; exact List.mem_cons_self ':' d2')).elim
  | c :: d1', s1, [], s2, h1, _, h => by
      simp only [List.nil_append, List.cons_append] at h
      injection h with hc _
      exact absurd (List.mem_cons_self ':' d1') (hc ▸ h1)
  | c :: d1', s1, c2 :: d2', s2, h1, h2, h => by
      simp only [List.cons_append] at h
      injection h with hc htail
      have h1' : ':' ∉ d1' := fun hm => h1 (List.mem_cons_of_mem _ hm)
      have h2' : ':' ∉ d2' := fun hm => h2 (List.mem_cons_of_mem _ hm)
      obtain ⟨hd, hs⟩ := append_colons_inj d1' s1 d2' s2 h1' h2' htail
      exact ⟨by rw [hc, hd], hs⟩

theorem logKey_inj (a b : TrainingLog) (ha : ':' ∉ a.date.data)
    (hb : ':' ∉ b.date.data) :
    logKey a = logKey b ↔ (a.date = b.date ∧ a.session = b.session) := by
  constructor
  · intro h
    have hd : a.date.data ++ ':' :: ':' :: a.session.data =
        b.date.data ++ ':' :: ':' :: b.session.data := by
      have hq := congrArg String.data h
      simpa [logKey, String.data_append, List.append_assoc] using hq
    obtain ⟨h1, h2⟩ := append_colons_inj _ _ _ _ ha hb hd
    exact ⟨congrArg String.mk h1, congrArg String.mk h2⟩
  · rintro ⟨h1, h2⟩
    unfold logKey
    rw [h1, h2]

/-- Claim C2: every session summary produced by the timeline grouping has
tonnage equal to the sum of `weight * reps` over its member sets — given
that each member's `tonnage` field was set to `weight * reps` at creation
time — and the summary tonnage of a given composite key is independent of
the insertion order of the input list; moreover `handleSaveSession` does
set `tonnage = weight * reps` at creation time. -/
theorem claim2_tonnage_invariant (logs logs' : List TrainingLog)
    (routines : List UserRoutine) (q : String) (a : Option String)
    (hton : ∀ l ∈ logs, l.tonnage = l.weight * l.reps)
    (hperm : logs'.Perm logs) :
    (∀ item ∈ timelineFlatItems logs routines q a,
      item.tonnage = (item.logs.map (fun l => l.weight * l.reps)).sum) ∧
    (∀ item' ∈ timelineFlatItems logs' routines q a,
      ∀ item ∈ timelineFlatItems logs routines q a,
        item'.id = item.id → item'.tonnage = item.tonnage) ∧
    (∀ (d s e : String) (o : ℤ) (n : ℕ) (sd : List SetData),
      ∀ l ∈ handleSaveSessionLogs d s e o n sd,
        l.tonnage = l.weight * l.reps) := by
  refine ⟨?_, ?_, ?_⟩
  · intro item hitem
    have hmem := mem_of_mem_timelineFlatItems hitem
    obtain ⟨hton', hlogs⟩ := timelineItem_tonnage_eq hmem
    rw [hton', hlogs]
    apply congrArg List.sum
    apply List.map_congr_left
    intro l hl
    exact hton l (List.mem_of_mem_filter hl)
  · intro item' hitem' item hitem hid
    have hmem' := mem_of_mem_timelineFlatItems hitem'
    have hmem := mem_of_mem_timelineFlatItems hitem
    obtain ⟨hton'', _⟩ := timelineItem_tonnage_eq hmem'
    obtain ⟨hton', _⟩ := timelineItem_tonnage_eq hmem
    rw [hton'', hton', hid]
    exact List.Perm.sum_eq (List.Perm.map _ (List.Perm.filter _ hperm))
  · intro d s e o n sd l hl
    rcases List.mem_filterMap.mp hl with ⟨i, _, hi⟩
    cases hget : sd.get? i with
    | none => rw [hget] at hi; simp at hi
    | some sdi =>
        rw [hget] at hi
        dsimp only at hi
        split at hi
        · rcases Option.some_inj.mp hi with rfl
          rfl
        · simp at hi

/-- Witness for C2 at the end-to-end fixture: the 2024-01-12 summary's
tonnage equals the sum of `weight * reps` over its single member set. -/
theorem claim2_tonnage_invariant_witness :
    (mkItem [] "2024-01-12::Push A" [pushLog4]).tonnage =
      ([pushLog4].map (fun l => l.weight * l.reps)).sum := by
  have h := claim2_tonnage_invariant pushLogs pushLogs [] "" none
    (by decide) (List.Perm.refl _)
  exact h.1 _ (by decide)

/-- Claim C3: the timeline grouping puts two entries into the same summary
exactly when they agree on date and session name (for the well-formed date
keys of the app, which contain no colon), returns summaries sorted
descending by date under lexicographic string comparison, and reports as
`exercisesCount` the number of distinct exercise names among the members. -/
theorem claim3_grouping_composite_key (logs : List TrainingLog)
    (routines : List UserRoutine)
    (hdates : ∀ l ∈ logs, ':' ∉ l.date.data) :
    (∀ a ∈ logs, ∀ b ∈ logs,
      ((∃ g ∈ timelineItemsSorted logs routines,
          a ∈ g.logs ∧ b ∈ g.logs) ↔
        (a.date = b.date ∧ a.session = b.session))) ∧
    (timelineItemsSorted logs routines).Sorted timelineRel ∧
    (∀ g ∈ timelineItemsSorted logs routines,
      g.exercisesCount = ((g.logs.map (fun l => l.exercise)).toFinset).card) := by
  refine ⟨?_, ?_, ?_⟩
  · intro a ha b hb
    constructor
    · rintro ⟨g, hg, hag, hbg⟩
      obtain ⟨_, hlogs⟩ := timelineItem_tonnage_eq hg
      rw [hlogs] at hag hbg
      have hka := of_decide_eq_true (List.mem_filter.mp hag).2
      have hkb := of_decide_eq_true (List.mem_filter.mp hbg).2
      exact (logKey_inj a b (hdates a ha) (hdates b hb)).mp (hka.trans hkb.symm)
    · rintro ⟨h1, h2⟩
      have hk : logKey a = logKey b :=
        (logKey_inj a b (hdates a ha) (hdates b hb)).mpr ⟨h1, h2⟩
      obtain ⟨p, hp, hpk⟩ := strengthGroups_covers logs a ha
      refine ⟨mkItem routines p.1 p.2,
        mem_timelineItemsSorted.mpr ⟨p, hp, rfl⟩, ?_, ?_⟩
      · rw [mkItem_logs, strengthGroups_filter logs p hp]
        exact List.mem_filter.mpr ⟨ha, decide_eq_true hpk.symm⟩
      · rw [mkItem_logs, strengthGroups_filter logs p hp]
        exact List.mem_filter.mpr ⟨hb, decide_eq_true (by rw [← hk, hpk])⟩
  · exact List.sorted_insertionSort timelineRel _
  · intro g hg
    rcases mem_timelineItemsSorted.mp hg with ⟨p, _, hitem⟩
    rw [← hitem, mkItem_logs]
    show (p.2.map (fun l => l.exercise)).dedup.length = _
    rw [List.card_toFinset]

/-- Witness for C3: in the end-to-end fixture, the first and second set of
2024-01-10 "Push A" land in one common summary. -/
theorem claim3_grouping_composite_key_witness :
    ∃ g ∈ timelineItemsSorted pushLogs [],
      pushLog1 ∈ g.logs ∧ pushLog2 ∈ g.logs := by
  have h := claim3_grouping_composite_key pushLogs [] (by decide)
  exact (h.1 pushLog1 (by decide) pushLog2 (by decide)).mpr (by decide)

/-! ### Selection lemmas -/

theorem contains_iff_mem {s : List String} {x : String} :
    s.contains x = true ↔ x ∈ s := by
  simp [List.elem_iff]

theorem mem_setAdd {s : List String} {x y : String} :
    y ∈ setAdd s x ↔ y ∈ s ∨ y = x := by
  unfold setAdd
  split
  · rename_i h
    have hx : x ∈ s := contains_iff_mem.mp h
    constructor
    · exact Or.inl
    · rintro (h' | rfl)
      · exact h'
      · exact hx
  · simp

theorem mem_setDelete {s : List String} {x y : String} :
    y ∈ setDelete s x ↔ y ∈ s ∧ y ≠ x := by
  unfold setDelete
  simp [List.mem_filter]

theorem mem_foldl_setDelete (items : List StrengthItem) :
    ∀ (s : List String) (x : String),
      (x ∈ items.foldl (fun s item => setDelete s item.id) s ↔
        (x ∈ s ∧ x ∉ items.map (fun i => i.id))) := by
  induction items with
  | nil => simp
  | cons i is ih =>
      intro s x
      rw [List.foldl_cons, ih, mem_setDelete]
      simp only [List.map_cons, List.mem_cons]
      constructor
      · rintro ⟨⟨hs, hne⟩, hnot⟩
        exact ⟨hs, fun h => h.elim hne hnot⟩
      · rintro ⟨hs, hnot⟩
        exact ⟨⟨hs, fun h => hnot (Or.inl h)⟩, fun h => hnot (Or.inr h)⟩

theorem mem_foldl_setAdd (items : List StrengthItem) :
    ∀ (s : List String) (x : String),
      (x ∈ items.foldl (fun s item => setAdd s item.id) s ↔
        (x ∈ s ∨ x ∈ items.map (fun i => i.id))) := by
  induction items with
  | nil => simp
  | cons i is ih =>
      intro s x
      rw [List.foldl_cons, ih, mem_setAdd]
      simp only [List.map_cons, List.mem_cons]
      constructor
      · rintro ((hs | rfl) | hmem)
        · exact Or.inl hs
        · exact Or.inr (Or.inl rfl)
        · exact Or.inr (Or.inr hmem)
      · rintro (hs | rfl | hmem)
        · exact Or.inl (Or.inl hs)
        · exact Or.inl (Or.inr rfl)
        · exact Or.inr hmem

theorem smartTargets_all_iff {sel : List String} {t : List StrengthItem} :
    (t.all (fun item => sel.contains item.id) = true) ↔
      ∀ i ∈ t, i.id ∈ sel := by
  rw [List.all_eq_true]
  constructor
  · intro h i hi
    exact contains_iff_mem.mp (h i hi)
  · intro h i hi
    exact contains_iff_mem.mpr (h i hi)

/-- Claim C5: a smart-select invocation is a no-op on an empty target
group; otherwise it removes exactly the target ids when the group is fully
selected and adds all target ids when it is not; ids outside the target
group are never added or removed. -/
theorem claim5_smart_select_toggle (sel : List String)
    (flat : List StrengthItem) (c : SmartCriteria) (v : Option String) :
    (smartTargets flat c v = [] → handleSmartSelect sel flat c v = sel) ∧
    (smartTargets flat c v ≠ [] →
      ((∀ i ∈ smartTargets flat c v, i.id ∈ sel) →
        ∀ x, (x ∈ handleSmartSelect sel flat c v ↔
          (x ∈ sel ∧ x ∉ (smartTargets flat c v).map (fun i => i.id)))) ∧
      ((¬ ∀ i ∈ smartTargets flat c v, i.id ∈ sel) →
        ∀ x, (x ∈ handleSmartSelect sel flat c v ↔
          (x ∈ sel ∨ x ∈ (smartTargets flat c v).map (fun i => i.id))))) ∧
    (∀ x, x ∉ (smartTargets flat c v).map (fun i => i.id) →
      (x ∈ handleSmartSelect sel flat c v ↔ x ∈ sel)) := by
  unfold handleSmartSelect
  by_cases h0 : smartTargets flat c v = []
  · rw [if_pos (by rw [h0]; rfl)]
    refine ⟨fun _ => rfl, fun h => absurd h0 h, fun x _ => Iff.rfl⟩
  · rw [if_neg (by simpa [List.length_eq_zero] using h0)]
    by_cases hall : ∀ i ∈ smartTargets flat c v, i.id ∈ sel
    · rw [if_pos (smartTargets_all_iff.mpr hall)]
      refine ⟨fun h => absurd h h0, fun _ => ⟨fun _ x => ?_, fun h => absurd hall h⟩,
        fun x hx => ?_⟩
      · exact mem_foldl_setDelete _ sel x
      · rw [mem_foldl_setDelete _ sel x]
        exact ⟨fun h => h.1, fun h => ⟨h, hx⟩⟩
    · rw [if_neg (fun h => hall (smartTargets_all_iff.mp h))]
      refine ⟨fun h => absurd h h0, fun _ => ⟨fun h => absurd h hall, fun _ x => ?_⟩,
        fun x hx => ?_⟩
      · exact mem_foldl_setAdd _ sel x
      · rw [mem_foldl_setAdd _ sel x]
        exact ⟨fun h => h.elim id (fun h => absurd h hx), Or.inl⟩

/-- Witness for C5 at the two-session fixture: with an empty selection and
the "visible" criterion, the two visible ids are exactly what gets added. -/
theorem claim5_smart_select_toggle_witness :
    "2024-04-02::Legs" ∈ handleSmartSelect []
      (timelineFlatItems [sessALog, sessBLog] [] "" none)
      SmartCriteria.visible none ↔
    ("2024-04-02::Legs" ∈ ([] : List String) ∨
      "2024-04-02::Legs" ∈ (smartTargets
        (timelineFlatItems [sessALog, sessBLog] [] "" none)
        SmartCriteria.visible none).map (fun i => i.id)) := by
  have h := claim5_smart_select_toggle []
    (timelineFlatItems [sessALog, sessBLog] [] "" none)
    SmartCriteria.visible none
  exact (h.2.1 (by decide)).2 (by decide) "2024-04-02::Legs"

/-- Claim C6 counterexample: the April 2024 month group is `{Legs, Push}`
and the selection holds only the Legs session; invoking "same month"
twice in succession does not return to the original selection — it
empties it. -/
theorem claim6_counterexample :
    "2024-04-02::Legs" ∈ (["2024-04-02::Legs"] : List String) ∧
    "2024-04-02::Legs" ∉ handleSmartSelect
      (handleSmartSelect ["2024-04-02::Legs"]
        (timelineFlatItems [sessALog, sessBLog] [] "" none)
        SmartCriteria.month (some "AVRIL 2024"))
      (timelineFlatItems [sessALog, sessBLog] [] "" none)
      SmartCriteria.month (some "AVRIL 2024") := by
  decide

/-- Claim C6 (amended): invoking smart select twice in succession with the
same criterion on an unchanged item set returns the selection set to its
pre-operation state, provided the target group was initially fully
selected or fully unselected; with a partial overlap the second invocation
instead removes the overlapping ids, so the original double-toggle claim
fails there. -/
theorem claim6_double_toggle (sel : List String) (flat : List StrengthItem)
    (c : SmartCriteria) (v : Option String)
    (h : (∀ i ∈ smartTargets flat c v, i.id ∈ sel) ∨
         (∀ i ∈ smartTargets flat c v, i.id ∉ sel)) :
    ∀ x, (x ∈ handleSmartSelect (handleSmartSelect sel flat c v) flat c v ↔
      x ∈ sel) := by
  intro x
  have hfirst := claim5_smart_select_toggle sel flat c v
  by_cases h0 : smartTargets flat c v = []
  · rw [hfirst.1 h0, (claim5_smart_select_toggle sel flat c v).1 h0]
  · have hsecond :=
      claim5_smart_select_toggle (handleSmartSelect sel flat c v) flat c v
    rcases h with hall | hnone
    · have hs1 : ∀ y, (y ∈ handleSmartSelect sel flat c v ↔
          (y ∈ sel ∧ y ∉ (smartTargets flat c v).map (fun i => i.id))) :=
        (hfirst.2.1 h0).1 hall
      have hnotall : ¬ ∀ i ∈ smartTargets flat c v,
          i.id ∈ handleSmartSelect sel flat c v := by
        intro hc
        rcases List.exists_mem_of_ne_nil _ h0 with ⟨i0, hi0⟩
        have := (hs1 i0.id).mp (hc i0 hi0)
        exact this.2 (List.mem_map.mpr ⟨i0, hi0, rfl⟩)
      have hs2 := (hsecond.2.1 h0).2 hnotall x
      rw [hs2, hs1 x]
      constructor
      · rintro (⟨hx, _⟩ | hx)
        · exact hx
        · rcases List.mem_map.mp hx with ⟨i, hi, rfl⟩
          exact hall i hi
      · intro hx
        by_cases hid : x ∈ (smartTargets flat c v).map (fun i => i.id)
        · exact Or.inr hid
        · exact Or.inl ⟨hx, hid⟩
    · have hnotall1 : ¬ ∀ i ∈ smartTargets flat c v, i.id ∈ sel := by
        intro hc
        rcases List.exists_mem_of_ne_nil _ h0 with ⟨i0, hi0⟩
        exact hnone i0 hi0 (hc i0 hi0)
      have hs1 : ∀ y, (y ∈ handleSmartSelect sel flat c v ↔
          (y ∈ sel ∨ y ∈ (smartTargets flat c v).map (fun i => i.id))) :=
        (hfirst.2.1 h0).2 hnotall1
      have hall2 : ∀ i ∈ smartTargets flat c v,
          i.id ∈ handleSmartSelect sel flat c v := by
        intro i hi
        exact (hs1 i.id).mpr (Or.inr (List.mem_map.mpr ⟨i, hi, rfl⟩))
      have hs2 := (hsecond.2.1 h0).1 hall2 x
      rw [hs2, hs1 x]
      constructor
      · rintro ⟨hx | hx, hnot⟩
        · exact hx
        · exact absurd hx hnot
      · intro hx
        refine ⟨Or.inl hx, fun hid => ?_⟩
        rcases List.mem_map.mp hid with ⟨i, hi, hix⟩
        exact hnone i hi (hix ▸ hx)

/-- Witness for C6 (amended) at the two-session fixture with an initially
empty (hence fully unselected) target group. -/
theorem claim6_double_toggle_witness :
    "2024-04-02::Legs" ∈ handleSmartSelect
      (handleSmartSelect []
        (timelineFlatItems [sessALog, sessBLog] [] "" none)
        SmartCriteria.visible none)
      (timelineFlatItems [sessALog, sessBLog] [] "" none)
      SmartCriteria.visible none ↔
    "2024-04-02::Legs" ∈ ([] : List String) :=
  claim6_double_toggle [] (timelineFlatItems [sessALog, sessBLog] [] "" none)
    SmartCriteria.visible none (Or.inr (by decide)) "2024-04-02::Legs"

/-- A smart-select invocation never changes membership of an id outside
the resolved target group. -/
theorem handleSmartSelect_mem_outside (sel : List String)
    (flat : List StrengthItem) (c : SmartCriteria) (v : Option String)
    (x : String) (hx : x ∉ (smartTargets flat c v).map (fun i => i.id)) :
    (x ∈ handleSmartSelect sel flat c v ↔ x ∈ sel) := by
  unfold handleSmartSelect
  by_cases h0 : smartTargets flat c v = []
  · rw [if_pos (by rw [h0]; rfl)]
  · rw [if_neg (by simpa [List.length_eq_zero] using h0)]
    by_cases hall : (smartTargets flat c v).all
        (fun item => sel.contains item.id) = true
    · rw [if_pos hall, mem_foldl_setDelete]
      exact ⟨fun h => h.1, fun h => ⟨h, hx⟩⟩
    · rw [if_neg hall, mem_foldl_setAdd]
      exact ⟨fun h => h.elim id (fun h => absurd h hx), Or.inl⟩

/-- The ids of the timeline summaries are pairwise distinct (they are the
keys of the grouping record). -/
theorem timelineItems_id_nodup (logs : List TrainingLog)
    (routines : List UserRoutine) :
    ((timelineItemsSorted logs routines).map (fun i => i.id)).Nodup := by
  have hperm : (timelineItemsSorted logs routines).Perm
      ((strengthGroups logs).map (fun p => mkItem routines p.1 p.2)) :=
    List.perm_insertionSort _ _
  have hperm2 := hperm.map (fun i : StrengthItem => i.id)
  rw [(hperm2.nodup_iff)]
  rw [List.map_map]
  have : ((fun i : StrengthItem => i.id) ∘ fun p : String × List TrainingLog =>
      mkItem routines p.1 p.2) = Prod.fst := by
    funext p
    rfl
  rw [this]
  exact strengthGroups_nodup_keys logs

/-- Claim C7: with a search filter active that excludes item `x` from the
visible timeline item list, "select all visible" is interpreted against
the filtered list only — it does not change whether `x.id` is selected,
and in particular never adds it. -/
theorem claim7_visible_only_selection (logs : List TrainingLog)
    (routines : List UserRoutine) (q : String) (sel : List String)
    (x : StrengthItem) (_hq : jsTrim q ≠ "")
    (hvis : x ∈ timelineItemsSorted logs routines)
    (hx : x ∉ timelineFlatItems logs routines q none) :
    (x.id ∈ handleSmartSelect sel (timelineFlatItems logs routines q none)
      SmartCriteria.visible none ↔ x.id ∈ sel) := by
  apply handleSmartSelect_mem_outside
  show x.id ∉ (timelineFlatItems logs routines q none).map (fun i => i.id)
  intro hmem
  rcases List.mem_map.mp hmem with ⟨y, hy, hyx⟩
  have hysorted := mem_of_mem_timelineFlatItems hy
  have hinj := List.inj_on_of_nodup_map (timelineItems_id_nodup logs routines)
  have : y = x := hinj hysorted hvis hyx
  exact hx (this ▸ hy)

/-- Witness for C7: searching for "push" hides the Legs session; selecting
all visible leaves the hidden Legs id unselected. -/
theorem claim7_visible_only_selection_witness :
    (mkItem [] "2024-04-02::Legs" [sessBLog]).id ∈ handleSmartSelect []
      (timelineFlatItems [sessALog, sessBLog] [] "push" none)
      SmartCriteria.visible none ↔
    (mkItem [] "2024-04-02::Legs" [sessBLog]).id ∈ ([] : List String) :=
  claim7_visible_only_selection [sessALog, sessBLog] [] "push" []
    (mkItem [] "2024-04-02::Legs" [sessBLog]) (by decide) (by decide)
    (by decide)

/-- Claim C8 counterexample: for the empty candidate list every candidate
id is vacuously selected, yet `isGroupSelected` reports `false`. -/
theorem claim8_counterexample :
    ¬ ((isGroupSelected [] [] = true) ↔
        ∀ item ∈ ([] : List StrengthItem), item.id ∈ ([] : List String)) := by
  decide

/-- Claim C8 (amended): `isGroupSelected` returns `true` exactly when the
candidate list is nonempty and every candidate's id is selected; an empty
candidate group is deliberately reported as not selected. -/
theorem claim8_is_group_selected (sel : List String)
    (items : List StrengthItem) :
    (isGroupSelected sel items = true) ↔
      (items ≠ [] ∧ ∀ item ∈ items, item.id ∈ sel) := by
  unfold isGroupSelected
  split
  · rename_i h
    simp [List.length_eq_zero.mp h]
  · rename_i h
    have hne : items ≠ [] := fun he => h (by rw [he]; rfl)
    rw [List.all_eq_true]
    constructor
    · intro ha
      exact ⟨hne, fun i hi => contains_iff_mem.mp (ha i hi)⟩
    · rintro ⟨_, ha⟩ i hi
      exact contains_iff_mem.mpr (ha i hi)

/-- Claim C1 (code bug evidence): two entries denoting the same calendar
day in the two accepted date formats and sharing the session name are NOT
placed into the same session bucket — the grouping key uses the raw date
string with no normalization, so the same calendar day splits into two
summaries with two distinct composite keys. -/
theorem claim1_no_date_normalization :
    (timelineFlatItems [isoDatedLog, slashDatedLog] [] "" none).length = 2 ∧
    (strengthGroups [isoDatedLog, slashDatedLog]).map (fun p => p.1) =
      ["2024-03-05::A", "05/03/2024::A"] := by
  decide

/-- Claim C10 counterexample: in the end-to-end scenario the FIRST summary
of the date-descending output is the 2024-01-12 session with tonnage 520,
not 1440 (1440 is the tonnage of the second, 2024-01-10 summary). -/
theorem claim10_counterexample :
    ((timelineFlatItems pushLogs [] "" none).get? 0).map
        (fun i => i.tonnage) = some 520 ∧
    ¬ ((timelineFlatItems pushLogs [] "" none).get? 0).map
        (fun i => i.tonnage) = some 1440 := by
  decide

set_option maxRecDepth 20000 in
/-- Claim C10 (amended): the end-to-end scenario produces exactly 2
session summaries; the 2024-01-10 summary — second in the date-descending
output, the first chronologically — has tonnage 1440 and distinct exercise
count 1 (the first output summary is 2024-01-12 with tonnage 520); and
exporting both selected yields a 5-line CSV (header plus 4 set rows)
sorted by date descending then set number ascending. -/
theorem claim10_end_to_end :
    (timelineFlatItems pushLogs [] "" none).length = 2 ∧
    ((timelineFlatItems pushLogs [] "" none).get? 0).map
        (fun i => (i.date, i.tonnage, i.exercisesCount)) =
      some ("2024-01-12", 520, 1) ∧
    ((timelineFlatItems pushLogs [] "" none).get? 1).map
        (fun i => (i.date, i.tonnage, i.exercisesCount)) =
      some ("2024-01-10", 1440, 1) ∧
    (jsLines (handleExport
        ((timelineFlatItems pushLogs [] "" none).map (fun i => i.id))
        (timelineFlatItems pushLogs [] "" none))).length = 5 ∧
    handleExport
        ((timelineFlatItems pushLogs [] "" none).map (fun i => i.id))
        (timelineFlatItems pushLogs [] "" none) =
      "\uFEFFDate,Programme,Exercice,Ordre,Serie,Poids (kg),Reps,Tonnage (kg)\n2024-01-12,Push A,Bench,1,1,65,8,520\n2024-01-10,Push A,Bench,1,1,50,8,400\n2024-01-10,Push A,Bench,1,2,60,8,480\n2024-01-10,Push A,Bench,1,3,70,8,560" := by
  decide

/-! ### CSV round-trip lemmas -/

theorem char_contains_iff {l : List Char} {a : Char} :
    l.contains a = true ↔ a ∈ l := by
  simp [List.elem_iff]

theorem doubleQuotes_length (l : List Char) :
    l.length ≤ (doubleQuotes l).length := by
  induction l with
  | nil => simp [doubleQuotes]
  | cons c cs ih =>
      by_cases h : c = '"' <;> simp [doubleQuotes, h] <;> omega

theorem sfa_false_comma (cs cur : List Char) :
    splitFieldsAux (',' :: cs) false cur =
      cur.reverse :: splitFieldsAux cs false [] := by
  simp [splitFieldsAux]

theorem sfa_false_quote (cs cur : List Char) :
    splitFieldsAux ('"' :: cs) false cur = splitFieldsAux cs true cur := by
  simp [splitFieldsAux]

theorem sfa_false_other (ch : Char) (cs cur : List Char) (h1 : ch ≠ ',')
    (h2 : ch ≠ '"') :
    splitFieldsAux (ch :: cs) false cur =
      splitFieldsAux cs false (ch :: cur) := by
  simp [splitFieldsAux, h1, h2]

theorem sfa_true_qq (cs cur : List Char) :
    splitFieldsAux ('"' :: '"' :: cs) true cur =
      splitFieldsAux cs true ('"' :: cur) :=
  rfl

theorem sfa_true_q_comma (cs cur : List Char) :
    splitFieldsAux ('"' :: ',' :: cs) true cur =
      splitFieldsAux (',' :: cs) false cur :=
  rfl

theorem sfa_true_q_nil (cur : List Char) :
    splitFieldsAux ['"'] true cur = splitFieldsAux [] false cur :=
  rfl

theorem sfa_true_other (ch : Char) (cs cur : List Char) (h : ch ≠ '"') :
    splitFieldsAux (ch :: cs) true cur =
      splitFieldsAux cs true (ch :: cur) := by
  rw [splitFieldsAux.eq_def]
  split <;> simp_all

theorem splitFieldsAux_unquoted :
    ∀ (c cs acc : List Char), (∀ ch ∈ c, ch ≠ ',' ∧ ch ≠ '"') →
      splitFieldsAux (c ++ cs) false acc =
        splitFieldsAux cs false (c.reverse ++ acc)
  | [], cs, acc, _ => by simp
  | ch :: c', cs, acc, h => by
      have hch := h ch (List.mem_cons_self _ _)
      rw [List.cons_append, sfa_false_other ch _ _ hch.1 hch.2,
        splitFieldsAux_unquoted c' cs (ch :: acc)
          (fun x hx => h x (List.mem_cons_of_mem _ hx))]
      simp

theorem splitFieldsAux_quoted :
    ∀ (c cs acc : List Char),
      splitFieldsAux (doubleQuotes c ++ cs) true acc =
        splitFieldsAux cs true (c.reverse ++ acc)
  | [], cs, acc => by simp [doubleQuotes]
  | ch :: c', cs, acc => by
      by_cases h : ch = '"'
      · subst h
        show splitFieldsAux (doubleQuotes ('"' :: c') ++ cs) true acc = _
        have hd : doubleQuotes ('"' :: c') = '"' :: '"' :: doubleQuotes c' := by
          simp [doubleQuotes]
        rw [hd, List.cons_append, List.cons_append, sfa_true_qq,
          splitFieldsAux_quoted c' cs ('"' :: acc)]
        simp
      · show splitFieldsAux (doubleQuotes (ch :: c') ++ cs) true acc = _
        have hd : doubleQuotes (ch :: c') = ch :: doubleQuotes c' := by
          simp [doubleQuotes, h]
        rw [hd, List.cons_append, sfa_true_other ch _ _ h,
          splitFieldsAux_quoted c' cs (ch :: acc)]
        simp

theorem needsQuote_false_chars {s : String} (h : needsQuote s = false) :
    ∀ ch ∈ s.data, ch ≠ ',' ∧ ch ≠ '"' := by
  intro ch hch
  unfold needsQuote at h
  rcases Bool.or_eq_false_iff.mp h with ⟨h1, h3⟩
  rcases Bool.or_eq_false_iff.mp h1 with ⟨hc, hq⟩
  constructor
  · rintro rfl
    rw [char_contains_iff.mpr hch] at hc
    cases hc
  · rintro rfl
    rw [char_contains_iff.mpr hch] at hq
    cases hq

/-- Parsing one escaped cell followed by either nothing or a comma and a
remainder consumes exactly the cell. -/
theorem splitFieldsAux_escapeCell_nil (c : String) :
    splitFieldsAux (escapeCell c).data false [] = [c.data] := by
  unfold escapeCell
  by_cases h : needsQuote c = true
  · rw [if_pos h]
    show splitFieldsAux ('"' :: (doubleQuotes c.data ++ ['"'])) false [] = _
    rw [sfa_false_quote, splitFieldsAux_quoted c.data ['"'] [],
      List.append_nil, sfa_true_q_nil]
    simp [splitFieldsAux]
  · rw [if_neg h]
    have h' : needsQuote c = false := by
      cases hnq : needsQuote c
      · rfl
      · exact absurd hnq h
    have := splitFieldsAux_unquoted c.data [] [] (needsQuote_false_chars h')
    rw [List.append_nil] at this
    rw [this]
    simp [splitFieldsAux]

theorem splitFieldsAux_escapeCell_comma (c : String) (rest : List Char) :
    splitFieldsAux ((escapeCell c).data ++ ',' :: rest) false [] =
      c.data :: splitFieldsAux rest false [] := by
  unfold escapeCell
  by_cases h : needsQuote c = true
  · rw [if_pos h]
    show splitFieldsAux ('"' :: (doubleQuotes c.data ++ ['"']) ++ ',' :: rest)
        false [] = _
    rw [List.cons_append, sfa_false_quote, List.append_assoc,
      splitFieldsAux_quoted c.data (['"'] ++ ',' :: rest) [],
      List.singleton_append, sfa_true_q_comma, sfa_false_comma]
    simp
  · rw [if_neg h]
    have h' : needsQuote c = false := by
      cases hnq : needsQuote c
      · rfl
      · exact absurd hnq h
    rw [splitFieldsAux_unquoted c.data (',' :: rest) []
      (needsQuote_false_chars h'), sfa_false_comma]
    simp

theorem splitFields_serializeRow :
    ∀ (cells : List String), cells ≠ [] →
      splitFieldsAux (serializeRow cells).data false [] =
        cells.map (fun c => c.data)
  | [], h => absurd rfl h
  | [c], _ => by
      show splitFieldsAux (joinComma [(escapeCell c).data]) false [] = _
      rw [show joinComma [(escapeCell c).data] = (escapeCell c).data from rfl]
      rw [splitFieldsAux_escapeCell_nil]
      rfl
  | c :: c2 :: cs, _ => by
      show splitFieldsAux
        (joinComma ((escapeCell c).data ::
          ((c2 :: cs).map (fun x => (escapeCell x).data)))) false [] = _
      rw [show joinComma ((escapeCell c).data ::
          ((c2 :: cs).map (fun x => (escapeCell x).data))) =
          (escapeCell c).data ++ ',' ::
            joinComma ((c2 :: cs).map (fun x => (escapeCell x).data)) from by
        simp [joinComma]]
      rw [splitFieldsAux_escapeCell_comma]
      rw [show joinComma ((c2 :: cs).map (fun x => (escapeCell x).data)) =
          (serializeRow (c2 :: cs)).data from rfl]
      rw [splitFields_serializeRow (c2 :: cs) (by simp)]
      rfl

/-- Claim C9: the CSV text built by the shared serializer starts with the
UTF-8 byte-order mark; each cell is stringified and wrapped in double
quotes (with inner double quotes doubled) exactly when it contains a
comma, a double quote, or a newline; the value `a,"b"\nc` serializes to
`"a,""b""\nc"`; and re-splitting any produced row, respecting quotes,
recovers the original cell values. -/
theorem claim9_csv_serialization :
    (escapeCell "a,\"b\"\nc" = "\"a,\"\"b\"\"\nc\"") ∧
    (∀ s : String, escapeCell s = s ↔ needsQuote s = false) ∧
    (∀ cells : List String, cells ≠ [] →
      splitCSVLine (serializeRow cells) = cells) ∧
    (∀ (headers : List String) (rows : List (List Cell)),
      (csvContent headers rows).data.head? = some '\uFEFF') := by
  refine ⟨by decide, ?_, ?_, ?_⟩
  · intro s
    unfold escapeCell
    by_cases h : needsQuote s = true
    · rw [if_pos h]
      constructor
      · intro he
        exfalso
        have hlen : ('"' :: (doubleQuotes s.data ++ ['"'])).length =
            s.data.length :=
          congrArg (fun t : String => t.data.length) he
        have hq := doubleQuotes_length s.data
        simp only [List.length_cons, List.length_append,
          List.length_singleton] at hlen
        omega
      · intro hf
        rw [h] at hf
        cases hf
    · rw [if_neg h]
      have h' : needsQuote s = false := by
        cases hnq : needsQuote s
        · rfl
        · exact absurd hnq h
      exact ⟨fun _ => h', fun _ => rfl⟩
  · intro cells hne
    unfold splitCSVLine
    rw [splitFields_serializeRow cells hne, List.map_map]
    have : ((fun l : List Char => (⟨l⟩ : String)) ∘ fun c : String => c.data) =
        id := by
      funext c
      rfl
    rw [this, List.map_id]
  · intro headers rows
    rfl

/-- Witness for C9: the round-trip at the spec's example cell. -/
theorem claim9_csv_serialization_witness :
    splitCSVLine (serializeRow ["a,\"b\"\nc"]) = ["a,\"b\"\nc"] :=
  claim9_csv_serialization.2.2.1 ["a,\"b\"\nc"] (by decide)

/-! ### Session-map lemmas -/

theorem mapGet_eq_none {m : List (String × ℤ)} {k : String}
    (h : ∀ p ∈ m, p.1 ≠ k) : mapGet m k = none := by
  unfold mapGet
  rw [List.find?_eq_none.mpr]
  · rfl
  · intro p hp
    simp [h p hp]

theorem mapGet_of_mem :
    ∀ {m : List (String × ℤ)}, (m.map Prod.fst).Nodup →
      ∀ {p : String × ℤ}, p ∈ m → mapGet m p.1 = some p.2
  | [], _, _, hp => absurd hp (List.not_mem_nil _)
  | q :: m', hn, p, hp => by
      have hn' : q.1 ∉ m'.map Prod.fst ∧ (m'.map Prod.fst).Nodup := by
        rw [List.map_cons] at hn
        exact List.nodup_cons.mp hn
      rcases List.mem_cons.mp hp with rfl | hp'
      · unfold mapGet
        rw [List.find?_cons_of_pos _ (by simp)]
        rfl
      · have hq : ¬ (q.1 = p.1) := by
          intro he
          apply hn'.1
          rw [he]
          exact List.mem_map.mpr ⟨p, hp', rfl⟩
        unfold mapGet
        rw [List.find?_cons_of_neg _ (by simp [hq])]
        exact mapGet_of_mem hn'.2 hp'

theorem mapSet_present {m : List (String × ℤ)} {k : String} {v : ℤ}
    (h : ∃ p ∈ m, p.1 = k) :
    mapSet m k v = m.map (fun p => if p.1 = k then (k, v) else p) := by
  unfold mapSet
  rw [if_pos (by simpa [List.any_eq_true] using h)]

theorem mapSet_absent {m : List (String × ℤ)} {k : String} {v : ℤ}
    (h : ∀ p ∈ m, p.1 ≠ k) : mapSet m k v = m ++ [(k, v)] := by
  unfold mapSet
  rw [if_neg]
  simp only [List.any_eq_true, decide_eq_true_eq]
  rintro ⟨p, hp, hpk⟩
  exact h p hp hpk

theorem smStep_invariant (pre : List TrainingLog) (l : TrainingLog)
    (m : List (String × ℤ))
    (hposl : 0 < l.weight)
    (hge : ∀ x ∈ pre, strLe x.date l.date)
    (h1 : (m.map Prod.fst).Nodup)
    (h2 : ∀ p ∈ m, ∃ x ∈ pre, x.date = p.1 ∧ x.weight = p.2)
    (h3 : ∀ p ∈ m, ∀ x ∈ pre, x.date = p.1 → x.weight ≤ p.2)
    (h4 : ∀ x ∈ pre, ∃ p ∈ m, p.1 = x.date)
    (h5 : (m.map Prod.fst).Pairwise strLt) :
    ((smStep m l).map Prod.fst).Nodup ∧
    (∀ p ∈ smStep m l, ∃ x ∈ pre ++ [l], x.date = p.1 ∧ x.weight = p.2) ∧
    (∀ p ∈ smStep m l, ∀ x ∈ pre ++ [l], x.date = p.1 → x.weight ≤ p.2) ∧
    (∀ x ∈ pre ++ [l], ∃ p ∈ smStep m l, p.1 = x.date) ∧
    ((smStep m l).map Prod.fst).Pairwise strLt := by
  have hinjm := List.inj_on_of_nodup_map h1
  unfold smStep
  by_cases hk : ∃ p ∈ m, p.1 = l.date
  · rcases hk with ⟨p0, hp0, hp0k⟩
    have hget : mapGet m l.date = some p0.2 := by
      rw [← hp0k]
      exact mapGet_of_mem h1 hp0
    rw [hget]
    simp only [Option.getD_some]
    by_cases hlt : p0.2 < l.weight
    · rw [if_pos hlt, mapSet_present ⟨p0, hp0, hp0k⟩]
      have hfst : (m.map (fun p => if p.1 = l.date then (l.date, l.weight)
          else p)).map Prod.fst = m.map Prod.fst := by
        rw [List.map_map]
        apply List.map_congr_left
        intro p _
        by_cases hp : p.1 = l.date <;> simp [hp]
      refine ⟨by rw [hfst]; exact h1, ?_, ?_, ?_, by rw [hfst]; exact h5⟩
      · intro p hp
        rcases List.mem_map.mp hp with ⟨q, hq, hqe⟩
        by_cases hql : q.1 = l.date
        · rw [if_pos hql] at hqe
          exact ⟨l, List.mem_append_right _ (List.mem_singleton.mpr rfl),
            by rw [← hqe], by rw [← hqe]⟩
        · rw [if_neg hql] at hqe
          rcases h2 q hq with ⟨x, hx, hxd, hxw⟩
          exact ⟨x, List.mem_append_left _ hx, by rw [← hqe]; exact hxd,
            by rw [← hqe]; exact hxw⟩
      · intro p hp x hx hxd
        rcases List.mem_map.mp hp with ⟨q, hq, hqe⟩
        rcases List.mem_append.mp hx with hx | hx
        · by_cases hql : q.1 = l.date
          · rw [if_pos hql] at hqe
            have hxd' : x.date = p0.1 := by
              rw [hp0k]
              rw [← hqe] at hxd
              exact hxd
            rw [← hqe]
            exact le_of_lt (lt_of_le_of_lt (h3 p0 hp0 x hx hxd') hlt)
          · rw [if_neg hql] at hqe
            rw [← hqe]
            exact h3 q hq x hx (by rw [hqe]; exact hxd)
        · have hxl : x = l := List.mem_singleton.mp hx
          by_cases hql : q.1 = l.date
          · rw [if_pos hql] at hqe
            rw [hxl, ← hqe]
          · rw [if_neg hql] at hqe
            refine absurd ?_ hql
            rw [← hqe] at hxd
            rw [hxl] at hxd
            exact hxd.symm
      · intro x hx
        rcases List.mem_append.mp hx with hx | hx
        · rcases h4 x hx with ⟨p, hp, hpk⟩
          refine ⟨if p.1 = l.date then (l.date, l.weight) else p,
            List.mem_map.mpr ⟨p, hp, rfl⟩, ?_⟩
          by_cases hpl : p.1 = l.date
          · rw [if_pos hpl]
            rw [← hpl, hpk]
          · rw [if_neg hpl]
            exact hpk
        · have hxl : x = l := List.mem_singleton.mp hx
          refine ⟨(l.date, l.weight),
            List.mem_map.mpr ⟨p0, hp0, by rw [if_pos hp0k]⟩, ?_⟩
          rw [hxl]
    · rw [if_neg hlt]
      refine ⟨h1, ?_, ?_, ?_, h5⟩
      · intro p hp
        rcases h2 p hp with ⟨x, hx, hxd, hxw⟩
        exact ⟨x, List.mem_append_left _ hx, hxd, hxw⟩
      · intro p hp x hx hxd
        rcases List.mem_append.mp hx with hx | hx
        · exact h3 p hp x hx hxd
        · have hxl : x = l := List.mem_singleton.mp hx
          rw [hxl] at hxd
          have hpp0 : p = p0 := hinjm hp hp0 (by rw [← hxd, hp0k])
          rw [hxl, hpp0]
          exact not_lt.mp hlt
      · intro x hx
        rcases List.mem_append.mp hx with hx | hx
        · exact h4 x hx
        · have hxl : x = l := List.mem_singleton.mp hx
          exact ⟨p0, hp0, by rw [hxl]; exact hp0k⟩
  · have hnone : ∀ p ∈ m, p.1 ≠ l.date := fun p hp he => hk ⟨p, hp, he⟩
    have hget : mapGet m l.date = none := mapGet_eq_none hnone
    rw [hget]
    simp only [Option.getD_none]
    rw [if_pos hposl, mapSet_absent hnone]
    refine ⟨?_, ?_, ?_, ?_, ?_⟩
    · rw [List.map_append, List.nodup_append]
      refine ⟨h1, List.nodup_singleton _, ?_⟩
      intro k hk1 hk2
      rcases List.mem_map.mp hk1 with ⟨p, hp, rfl⟩
      rcases List.mem_singleton.mp hk2 with h
      exact hnone p hp h
    · intro p hp
      rcases List.mem_append.mp hp with hp | hp
      · rcases h2 p hp with ⟨x, hx, hxd, hxw⟩
        exact ⟨x, List.mem_append_left _ hx, hxd, hxw⟩
      · have hpl := List.mem_singleton.mp hp
        refine ⟨l, List.mem_append_right _ (List.mem_singleton.mpr rfl),
          ?_, ?_⟩
        · rw [hpl]
        · rw [hpl]
    · intro p hp x hx hxd
      rcases List.mem_append.mp hp with hp | hp
      · rcases List.mem_append.mp hx with hx | hx
        · exact h3 p hp x hx hxd
        · have hxl : x = l := List.mem_singleton.mp hx
          rw [hxl] at hxd
          exact absurd hxd.symm (hnone p hp)
      · have hpl := List.mem_singleton.mp hp
        rcases List.mem_append.mp hx with hx | hx
        · exfalso
          rcases h4 x hx with ⟨q, hq, hqk⟩
          apply hnone q hq
          rw [hqk, hxd, hpl]
        · have hxl : x = l := List.mem_singleton.mp hx
          rw [hxl, hpl]
    · intro x hx
      rcases List.mem_append.mp hx with hx | hx
      · rcases h4 x hx with ⟨p, hp, hpk⟩
        exact ⟨p, List.mem_append_left _ hp, hpk⟩
      · have hxl : x = l := List.mem_singleton.mp hx
        exact ⟨(l.date, l.weight),
          List.mem_append_right _ (List.mem_singleton.mpr rfl),
          by rw [hxl]⟩
    · rw [List.map_append, List.pairwise_append]
      refine ⟨h5, List.pairwise_singleton _ _, ?_⟩
      intro k hk1 k' hk2
      rcases List.mem_map.mp hk1 with ⟨p, hp, rfl⟩
      rcases List.mem_singleton.mp hk2 with rfl
      rcases h2 p hp with ⟨x, hx, hxd, _⟩
      have hle : strLe p.1 l.date := hxd ▸ hge x hx
      have hne : p.1 ≠ l.date := hnone p hp
      refine lt_of_le_of_ne hle (fun hd => hne ?_)
      have hmk := congrArg String.mk hd
      simpa using hmk
theorem foldl_smStep_invariant :
    ∀ (logs pre : List TrainingLog) (m : List (String × ℤ)),
      (pre ++ logs).Pairwise dateAscRel →
      (∀ x ∈ logs, 0 < x.weight) →
      (m.map Prod.fst).Nodup →
      (∀ p ∈ m, ∃ x ∈ pre, x.date = p.1 ∧ x.weight = p.2) →
      (∀ p ∈ m, ∀ x ∈ pre, x.date = p.1 → x.weight ≤ p.2) →
      (∀ x ∈ pre, ∃ p ∈ m, p.1 = x.date) →
      (m.map Prod.fst).Pairwise strLt →
      (((logs.foldl smStep m).map Prod.fst).Nodup ∧
       (∀ p ∈ logs.foldl smStep m,
         ∃ x ∈ pre ++ logs, x.date = p.1 ∧ x.weight = p.2) ∧
       (∀ p ∈ logs.foldl smStep m,
         ∀ x ∈ pre ++ logs, x.date = p.1 → x.weight ≤ p.2) ∧
       (∀ x ∈ pre ++ logs, ∃ p ∈ logs.foldl smStep m, p.1 = x.date) ∧
       ((logs.foldl smStep m).map Prod.fst).Pairwise strLt)
  | [], pre, m, _, _, h1, h2, h3, h4, h5 => by
      rw [List.foldl_nil, List.append_nil]
      exact ⟨h1, h2, h3, h4, h5⟩
  | l :: logs, pre, m, hsorted, hpos, h1, h2, h3, h4, h5 => by
      rw [List.foldl_cons]
      have hge : ∀ x ∈ pre, strLe x.date l.date := by
        intro x hx
        exact (List.pairwise_append.mp hsorted).2.2 x hx l
          (List.mem_cons_self _ _)
      have step := smStep_invariant pre l m
        (hpos l (List.mem_cons_self _ _)) hge h1 h2 h3 h4 h5
      have hsorted' : ((pre ++ [l]) ++ logs).Pairwise dateAscRel := by
        rw [List.append_assoc, List.singleton_append]
        exact hsorted
      have IH := foldl_smStep_invariant logs (pre ++ [l]) (smStep m l)
        hsorted' (fun x hx => hpos x (List.mem_cons_of_mem _ hx))
        step.1 step.2.1 step.2.2.1 step.2.2.2.1 step.2.2.2.2
      rw [List.append_assoc, List.singleton_append] at IH
      exact IH

/-- For date-sorted logs with positive weights, the `sessionMap` is a
duplicate-free association list in strictly ascending date order whose
value at each date is the maximum weight of that date's logs. -/
theorem sessionMap_spec (logs : List TrainingLog)
    (hsorted : logs.Pairwise dateAscRel)
    (hpos : ∀ x ∈ logs, 0 < x.weight) :
    ((sessionMap logs).map Prod.fst).Nodup ∧
    (∀ p ∈ sessionMap logs, ∃ x ∈ logs, x.date = p.1 ∧ x.weight = p.2) ∧
    (∀ p ∈ sessionMap logs, ∀ x ∈ logs, x.date = p.1 → x.weight ≤ p.2) ∧
    (∀ x ∈ logs, ∃ p ∈ sessionMap logs, p.1 = x.date) ∧
    ((sessionMap logs).map Prod.fst).Pairwise strLt := by
  have h := foldl_smStep_invariant logs [] [] (by simpa using hsorted) hpos
    (by simp) (by simp) (by simp) (by simp) (by simp)
  simpa using h

/-! ### History-list access lemmas -/

theorem historyEntry_date (logs : List TrainingLog)
    (sm : List (String × ℤ)) (keys : List String) (idx : ℕ) :
    (historyEntry logs sm keys idx).date = keys.getD idx "" :=
  rfl

theorem historyEntry_maxWeight (logs : List TrainingLog)
    (sm : List (String × ℤ)) (keys : List String) (idx : ℕ) :
    (historyEntry logs sm keys idx).maxWeight =
      (mapGet sm (keys.getD idx "")).getD 0 :=
  rfl

theorem historyList_length (logs : List TrainingLog)
    (sm : List (String × ℤ)) :
    (historyList logs sm).length = sm.length := by
  simp [historyList]

theorem historyList_get (logs : List TrainingLog) (sm : List (String × ℤ))
    (i : ℕ) (hi : i < (historyList logs sm).length) :
    (historyList logs sm).get ⟨i, hi⟩ =
      historyEntry logs sm ((sm.map (fun p => p.1)).reverse) i := by
  simp [historyList]

theorem analyticsHistory_eq_some {tl : List TrainingLog} {ex : String}
    {hl : List HistoryEntry}
    (h : analyticsHistory tl (some ex) = some hl) :
    hl = historyList
      (List.insertionSort dateAscRel (tl.filter (fun l => l.exercise = ex)))
      (sessionMap (List.insertionSort dateAscRel
        (tl.filter (fun l => l.exercise = ex)))) := by
  unfold analyticsHistory at h
  dsimp only at h
  split at h
  · cases h
  · exact (Option.some_inj.mp h).symm

/-- Claim C4: in the per-exercise progression history (for well-formed
input: positive weights and nonempty date keys for the analyzed exercise),
each entry's trend flag compares the entry's daily max with the
immediately preceding distinct date's daily max — `up` if strictly
greater, `down` if strictly less, `flat` otherwise — the oldest entry
(the last of the reverse-chronological list) is always `flat`, each
entry's `maxWeight` is the maximum weight lifted that day, the history
runs in strictly descending date order, and on the daily-max series
50, 55, 55, 52 the chronological flags are flat, up, flat, down. -/
theorem claim4_trend_flags (tl : List TrainingLog) (ex : String)
    (hl : List HistoryEntry)
    (hw : ∀ l ∈ tl, l.exercise = ex → (0 < l.weight ∧ l.date ≠ ""))
    (hh : analyticsHistory tl (some ex) = some hl) :
    (∀ i, ∀ hi : i + 1 < hl.length,
      (hl.get ⟨i, by omega⟩).trend =
        (if (hl.get ⟨i + 1, hi⟩).maxWeight <
            (hl.get ⟨i, by omega⟩).maxWeight then Trend.up
         else if (hl.get ⟨i, by omega⟩).maxWeight <
            (hl.get ⟨i + 1, hi⟩).maxWeight then Trend.down
         else Trend.flat) ∧
      strLt (hl.get ⟨i + 1, hi⟩).date (hl.get ⟨i, by omega⟩).date) ∧
    (∀ hne : hl ≠ [], (hl.getLast hne).trend = Trend.flat) ∧
    (∀ i, ∀ hi : i < hl.length,
      (∃ l ∈ tl, l.exercise = ex ∧ l.date = (hl.get ⟨i, hi⟩).date ∧
        l.weight = (hl.get ⟨i, hi⟩).maxWeight) ∧
      (∀ l ∈ tl, l.exercise = ex → l.date = (hl.get ⟨i, hi⟩).date →
        l.weight ≤ (hl.get ⟨i, hi⟩).maxWeight)) ∧
    ((analyticsHistory benchLogs (some "Bench")).map
      (fun h => (h.map (fun e => e.trend)).reverse) =
      some [Trend.flat, Trend.up, Trend.flat, Trend.down]) := by
  have hEq := analyticsHistory_eq_some hh
  subst hEq
  set slogs := List.insertionSort dateAscRel
    (tl.filter (fun l => l.exercise = ex)) with hslogs
  set sm := sessionMap slogs with hsm
  set keys := (sm.map (fun p => p.1)).reverse with hkeys
  have hmem : ∀ x : TrainingLog, x ∈ slogs ↔ (x ∈ tl ∧ x.exercise = ex) := by
    intro x
    rw [hslogs, List.mem_insertionSort, List.mem_filter]
    simp
  have hpos : ∀ x ∈ slogs, 0 < x.weight := fun x hx =>
    (hw x ((hmem x).mp hx).1 ((hmem x).mp hx).2).1
  have hdne : ∀ x ∈ slogs, x.date ≠ "" := fun x hx =>
    (hw x ((hmem x).mp hx).1 ((hmem x).mp hx).2).2
  have hsorted : slogs.Pairwise dateAscRel :=
    List.sorted_insertionSort dateAscRel _
  obtain ⟨hn, hwit, hub, _hcov, hkeyasc⟩ := sessionMap_spec slogs hsorted hpos
  have hkeylen : keys.length = sm.length := by simp [hkeys]
  have hllen : (historyList slogs sm).length = sm.length :=
    historyList_length _ _
  have hkfact : ∀ i, ∀ hi : i < keys.length, ∃ v : ℤ,
      mapGet sm (keys.get ⟨i, hi⟩) = some v ∧
      (∃ x ∈ slogs, x.date = keys.get ⟨i, hi⟩ ∧ x.weight = v) ∧
      (∀ x ∈ slogs, x.date = keys.get ⟨i, hi⟩ → x.weight ≤ v) := by
    intro i hi
    have hkmem : keys.get ⟨i, hi⟩ ∈ sm.map Prod.fst := by
      have hmem' : keys.get ⟨i, hi⟩ ∈ keys := List.get_mem _ _ _
      exact List.mem_reverse.mp hmem'
    rcases List.mem_map.mp hkmem with ⟨p, hp, hpk⟩
    refine ⟨p.2, ?_, ?_, ?_⟩
    · rw [← hpk]
      exact mapGet_of_mem hn hp
    · rcases hwit p hp with ⟨x, hx, hxd, hxw⟩
      exact ⟨x, hx, by rw [← hpk]; exact hxd, hxw⟩
    · intro x hx hxd
      exact hub p hp x hx (by rw [hpk]; exact hxd)
  have hknne : ∀ i, ∀ hi : i < keys.length, keys.get ⟨i, hi⟩ ≠ "" := by
    intro i hi
    rcases hkfact i hi with ⟨v, _, ⟨x, hx, hxd, _⟩, _⟩
    rw [← hxd]
    exact hdne x hx
  have hgetD : ∀ i, ∀ hi : i < keys.length,
      keys.getD i "" = keys.get ⟨i, hi⟩ := by
    intro i hi
    rw [List.getD_eq_getElem?_getD, List.getElem?_eq_getElem hi]
    rfl
  have hmw : ∀ i, ∀ hi : i < keys.length,
      (historyEntry slogs sm keys i).maxWeight =
        (mapGet sm (keys.get ⟨i, hi⟩)).getD 0 := by
    intro i hi
    rw [historyEntry_maxWeight, hgetD i hi]
  have hdate : ∀ i, ∀ hi : i < keys.length,
      (historyEntry slogs sm keys i).date = keys.get ⟨i, hi⟩ := by
    intro i hi
    rw [historyEntry_date, hgetD i hi]
  have htrend : ∀ i, ∀ hi : i + 1 < keys.length,
      (historyEntry slogs sm keys i).trend =
        (if (mapGet sm (keys.get ⟨i + 1, hi⟩)).getD 0 <
            (mapGet sm (keys.get ⟨i, by omega⟩)).getD 0 then Trend.up
         else if (mapGet sm (keys.get ⟨i, by omega⟩)).getD 0 <
            (mapGet sm (keys.get ⟨i + 1, hi⟩)).getD 0 then Trend.down
         else Trend.flat) := by
    intro i hi
    have hg2 : keys.get? (i + 1) = some (keys.get ⟨i + 1, hi⟩) := by
      rw [List.get?_eq_getElem?, List.getElem?_eq_getElem hi]
      rfl
    simp only [historyEntry, hg2, hgetD i (by omega)]
    rw [if_neg (hknne (i + 1) hi)]
  have hlastflat : ∀ i, ∀ hi : i < keys.length, i + 1 = keys.length →
      (historyEntry slogs sm keys i).trend = Trend.flat := by
    intro i hi hend
    have hg2 : keys.get? (i + 1) = none := by
      rw [List.get?_eq_getElem?]
      exact List.getElem?_eq_none (by omega)
    simp only [historyEntry, hg2]
    simp [lt_irrefl]
  refine ⟨?_, ?_, ?_, by decide⟩
  · intro i hi
    have hik : i + 1 < keys.length := by omega
    rw [historyList_get slogs sm i (by omega),
      historyList_get slogs sm (i + 1) hi]
    refine ⟨?_, ?_⟩
    · rw [htrend i hik, hmw i (by omega), hmw (i + 1) hik]
    · rw [hdate i (by omega), hdate (i + 1) hik]
      have hrev : keys.Pairwise (fun a b => strLt b a) := by
        rw [hkeys]
        exact List.pairwise_reverse.mpr hkeyasc
      exact List.pairwise_iff_get.mp hrev ⟨i, by omega⟩ ⟨i + 1, hik⟩
        (by exact Nat.lt_succ_self i)
  · intro hne
    have hpos' : 0 < (historyList slogs sm).length :=
      List.length_pos.mpr hne
    rw [List.getLast_eq_getElem]
    rw [show ((historyList slogs sm)[(historyList slogs sm).length - 1]) =
      (historyList slogs sm).get ⟨(historyList slogs sm).length - 1,
        by omega⟩ from rfl]
    rw [historyList_get slogs sm ((historyList slogs sm).length - 1)
      (by omega)]
    exact hlastflat ((historyList slogs sm).length - 1) (by omega) (by omega)
  · intro i hi
    have hik : i < keys.length := by omega
    rw [historyList_get slogs sm i hi, hdate i hik, hmw i hik]
    rcases hkfact i hik with ⟨v, hv, ⟨x, hx, hxd, hxw⟩, hvub⟩
    rw [hv]
    refine ⟨⟨x, ((hmem x).mp hx).1, ((hmem x).mp hx).2, hxd, by
      rw [Option.getD_some]; exact hxw⟩, ?_⟩
    intro l hlmem hlex hld
    rw [Option.getD_some]
    exact hvub l ((hmem l).mpr ⟨hlmem, hlex⟩) hld

/-- Witness for C4 at the 50, 55, 55, 52 fixture. -/
theorem claim4_trend_flags_witness :
    (analyticsHistory benchLogs (some "Bench")).map
      (fun h => (h.map (fun e => e.trend)).reverse) =
      some [Trend.flat, Trend.up, Trend.flat, Trend.down] :=
  (claim4_trend_flags benchLogs "Bench"
    [⟨"2024-02-07", [benchLog4], 52, Trend.down⟩,
     ⟨"2024-02-05", [benchLog3], 55, Trend.flat⟩,
     ⟨"2024-02-03", [benchLog2], 55, Trend.up⟩,
     ⟨"2024-02-01", [benchLog1], 50, Trend.flat⟩]
    (by decide) (by decide)).2.2.2

end Athletica
